import Mathlib

/-!
Verification of the Cache-Composer library (multi-tier read-through cache).

The development shallowly embeds the TypeScript sources:
* `src/CacheComposer.ts` (the orchestrator),
* the `MemoryLayer` class (bounded in-process layer with LRU/LFU eviction,
  lazy TTL expiry and a tag scan; source embedded in the repository README),
* the `FileLayer` class (filesystem layer; source embedded in the README),
* `src/layers/RedisLayer.ts` (remote layer; only the pure entry-construction
  part of `set` is modelled, the network round trips are abstracted as a
  key-value store).

Modelling conventions:
* JavaScript `Map` objects become association lists `List (String × α)` in
  insertion order; `Map.set` replaces in place (keeping the position) or
  appends, `Map.delete` removes the binding, iteration is list order.
* Timestamps (`Date.now()`, `performance.now()`) are `Nat` values passed
  explicitly; the several `Date.now()` calls inside one operation are modelled
  as a single instant `now`.
* `options.ttl || defaultTTL` — the JavaScript falsy test — becomes
  `effectiveTTL`: `none` (undefined) and `some 0` both fall back to the
  default.
* A missing value (`null`) becomes `Option.none`; the latency sampling
  (`recordAccessTime`, `avgAccessTime`), which measures wall-clock time, is
  outside the model.  Hit/miss/size counters are kept.
-/

/-- Entry record stored by every layer (`CacheEntry` in `types`):
value, expiry time, creation time, access count, last-access time, optional
tag list. -/
structure CacheEntry (V : Type) where
  value : V
  expiresAt : Nat
  createdAt : Nat
  accessCount : Nat
  lastAccessed : Nat
  tags : Option (List String)
  deriving DecidableEq, Repr

/-- Options accepted by `set` (`CacheOptions` in `types`): optional TTL in
milliseconds and optional tag list.  `ttl = none` models an absent (undefined)
field. -/
structure CacheOptions where
  ttl : Option Nat := none
  tags : Option (List String) := none
  deriving DecidableEq, Repr

/-- Invalidation strategy type.  Modelled from the spec: the file `types.ts`
is not part of the snapshot; the README documents the values
`lru`, `lfu`, `ttl`, `manual` for `invalidation.type`. -/
inductive InvalidationType where
  | lru
  | lfu
  | ttl
  | manual
  deriving DecidableEq, Repr

/-- Lookup in a JavaScript `Map` modelled as an association list
(first binding wins; a well-formed map has distinct keys). -/
def mapGet {α : Type} : List (String × α) → String → Option α
  | [], _ => none
  | p :: rest, k => if p.1 = k then some p.2 else mapGet rest k

/-- Membership test of a JavaScript `Map` (`Map.has`). -/
def mapHas {α : Type} (m : List (String × α)) (k : String) : Bool :=
  (mapGet m k).isSome

/-- Update of a JavaScript `Map` (`Map.set`): replaces an existing binding in
place (keeping its insertion position) or appends a new binding at the end. -/
def mapSet {α : Type} : List (String × α) → String → α → List (String × α)
  | [], k, v => [(k, v)]
  | p :: rest, k, v => if p.1 = k then (k, v) :: rest else p :: mapSet rest k v

/-- Removal from a JavaScript `Map` (`Map.delete`): drops every binding of the
key (exactly one in a well-formed map). -/
def mapDelete {α : Type} : List (String × α) → String → List (String × α)
  | [], _ => []
  | p :: rest, k => if p.1 = k then mapDelete rest k else p :: mapDelete rest k

/-- The test `entry.tags?.includes(tag)`: false when the entry has no tag
list. -/
def hasTag (tags : Option (List String)) (tag : String) : Bool :=
  match tags with
  | none => false
  | some l => l.contains tag

/-- The expression `options.ttl || this.defaultTTL` shared by all three layer
implementations of `set`: an absent or zero (falsy) TTL option falls back to
the default TTL of the layer. -/
def effectiveTTL (o : Option Nat) (d : Nat) : Nat :=
  match o with
  | none => d
  | some t => if t = 0 then d else t

/-- The entry literal built by every layer inside `set`:
`{ value, expiresAt: Date.now() + ttl, createdAt: Date.now(), accessCount: 0,
lastAccessed: Date.now(), tags: options.tags }`. -/
def newEntry {V : Type} (now : Nat) (v : V) (o : CacheOptions) (d : Nat) :
    CacheEntry V :=
  { value := v
    expiresAt := now + effectiveTTL o.ttl d
    createdAt := now
    accessCount := 0
    lastAccessed := now
    tags := o.tags }

/-- State of a `MemoryLayer` instance: the entry table (a `Map` in insertion
order), the hit/miss/size statistics, and the constructor configuration
`maxSize`, `defaultTTL`, `invalidation`. -/
structure MemLayer (V : Type) where
  cache : List (String × CacheEntry V)
  statsHits : Nat
  statsMisses : Nat
  statsSize : Nat
  maxSize : Nat
  defaultTTL : Nat
  invalidation : InvalidationType
  deriving DecidableEq, Repr

/-- A freshly constructed `MemoryLayer` (empty table, zero statistics). -/
def emptyMem {V : Type} (m d : Nat) (inv : InvalidationType) : MemLayer V :=
  { cache := []
    statsHits := 0
    statsMisses := 0
    statsSize := 0
    maxSize := m
    defaultTTL := d
    invalidation := inv }

/-- `MemoryLayer.get`: miss on an absent key; an entry with
`expiresAt < Date.now()` is deleted and reported as a miss; on a live entry
the access count is incremented, the last-access time refreshed, and the
value returned. -/
def memGet {V : Type} (now : Nat) (key : String) (st : MemLayer V) :
    Option V × MemLayer V :=
  match mapGet st.cache key with
  | none => (none, { st with statsMisses := st.statsMisses + 1 })
  | some e =>
    if e.expiresAt < now then
      (none, { st with cache := mapDelete st.cache key,
                       statsMisses := st.statsMisses + 1 })
    else
      (some e.value,
       { st with
           cache := mapSet st.cache key
             { e with accessCount := e.accessCount + 1, lastAccessed := now }
           statsHits := st.statsHits + 1 })

/-- Single accumulator pass shared by `evictLRU` and `evictLFU`:
`oldest = Infinity; for (key, entry): if f entry < oldest then remember`.
The accumulator `none` plays the role of the initial `Infinity`. -/
def evictScan {V : Type} (f : CacheEntry V → Nat) :
    List (String × CacheEntry V) → Option (String × Nat) → Option String
  | [], acc => acc.map (fun p => p.1)
  | p :: rest, acc =>
    match acc with
    | none => evictScan f rest (some (p.1, f p.2))
    | some q =>
      if f p.2 < q.2 then evictScan f rest (some (p.1, f p.2))
      else evictScan f rest (some q)

/-- `MemoryLayer.evictLRU`: first-found entry with the smallest
`lastAccessed`. -/
def evictLRU {V : Type} (st : MemLayer V) : Option String :=
  evictScan (fun e => e.lastAccessed) st.cache none

/-- `MemoryLayer.evictLFU`: first-found entry with the smallest
`accessCount`. -/
def evictLFU {V : Type} (st : MemLayer V) : Option String :=
  evictScan (fun e => e.accessCount) st.cache none

/-- The `switch (this.invalidation.type)` dispatch inside
`MemoryLayer.evict`: `lru` and the default case use the recency rule, `lfu`
uses the frequency rule. -/
def evictChoice {V : Type} (st : MemLayer V) : Option String :=
  match st.invalidation with
  | .lru => evictLRU st
  | .lfu => evictLFU st
  | _ => evictLRU st

/-- `MemoryLayer.evict`: no-op on an empty table, otherwise deletes the key
selected by the configured policy. -/
def evict {V : Type} (st : MemLayer V) : MemLayer V :=
  if st.cache.length = 0 then st
  else
    match evictChoice st with
    | some k => { st with cache := mapDelete st.cache k }
    | none => st

/-- `MemoryLayer.set`: when the table is full (`size >= maxSize`) and the key
is new, one entry is evicted first; then a fresh entry (effective TTL, tags
from the options) is stored and the size statistic refreshed. -/
def memSet {V : Type} (now : Nat) (key : String) (v : V) (o : CacheOptions)
    (st : MemLayer V) : MemLayer V :=
  let st1 :=
    if st.maxSize ≤ st.cache.length ∧ mapHas st.cache key = false then evict st
    else st
  let c2 := mapSet st1.cache key (newEntry now v o st.defaultTTL)
  { st1 with cache := c2, statsSize := c2.length }

/-- `MemoryLayer.delete`: reports whether the key was present, removes it and
refreshes the size statistic. -/
def memDelete {V : Type} (key : String) (st : MemLayer V) :
    Bool × MemLayer V :=
  let r := mapHas st.cache key
  let c2 := mapDelete st.cache key
  (r, { st with cache := c2, statsSize := c2.length })

/-- `MemoryLayer.clear`. -/
def memClear {V : Type} (st : MemLayer V) : MemLayer V :=
  { st with cache := [], statsSize := 0 }

/-- `MemoryLayer.has`: absent key reports false; an expired entry is removed
and reported absent; a live entry reports true. -/
def memHas {V : Type} (now : Nat) (key : String) (st : MemLayer V) :
    Bool × MemLayer V :=
  match mapGet st.cache key with
  | none => (false, st)
  | some e =>
    if e.expiresAt < now then
      (false, { st with cache := mapDelete st.cache key })
    else (true, st)

/-- The scan loop of `MemoryLayer.deleteByTag`: walks the entries in order,
deletes every entry whose tag list contains the tag and counts the
deletions. -/
def deleteByTagGo {V : Type} (tag : String) :
    List (String × CacheEntry V) → Nat × List (String × CacheEntry V)
  | [] => (0, [])
  | p :: rest =>
    let r := deleteByTagGo tag rest
    if hasTag p.2.tags tag then (r.1 + 1, r.2) else (r.1, p :: r.2)

/-- `MemoryLayer.deleteByTag`: scan, delete, refresh the size statistic,
return the count. -/
def memDeleteByTag {V : Type} (tag : String) (st : MemLayer V) :
    Nat × MemLayer V :=
  let r := deleteByTagGo tag st.cache
  (r.1, { st with cache := r.2, statsSize := r.2.length })

/-- One abstract call against a `MemoryLayer`, used to state reachability
invariants over arbitrary operation sequences. -/
inductive MemOp (V : Type) where
  | get (now : Nat) (key : String)
  | set (now : Nat) (key : String) (v : V) (o : CacheOptions)
  | del (key : String)
  | clear
  | has (now : Nat) (key : String)
  | deleteByTag (tag : String)

/-- State transition of one `MemOp`. -/
def applyOp {V : Type} : MemOp V → MemLayer V → MemLayer V
  | .get now key, st => (memGet now key st).2
  | .set now key v o, st => memSet now key v o st
  | .del key, st => (memDelete key st).2
  | .clear, st => memClear st
  | .has now key, st => (memHas now key st).2
  | .deleteByTag tag, st => (memDeleteByTag tag st).2

/-- Run a sequence of layer calls from left to right. -/
def runOps {V : Type} (ops : List (MemOp V)) (st : MemLayer V) : MemLayer V :=
  ops.foldl (fun s op => applyOp op s) st

/-- JavaScript `ToInt32` conversion (the effect of the bitwise operators in
`hashKey`): reduce modulo `2 ^ 32` into the signed range. -/
def toInt32 (x : Int) : Int :=
  (x + 2 ^ 31) % 2 ^ 32 - 2 ^ 31

/-- One step of `FileLayer.hashKey`:
`hash = ((hash << 5) - hash) + char; hash = hash & hash`.  The shift truncates
to 32 bits before the subtraction; `hash & hash` truncates the float result
back to 32 bits. -/
def hashStep (h : Int) (c : Nat) : Int :=
  toInt32 (toInt32 (h * 32) - h + c)

/-- Digit character of `Number.prototype.toString(36)`. -/
def base36Digit (n : Nat) : Char :=
  if n < 10 then Char.ofNat (48 + n) else Char.ofNat (87 + n)

/-- Base-36 digit expansion, most significant first; the first argument is
fuel (the value itself suffices since the value shrinks every step). -/
def toBase36Go : Nat → Nat → List Char → List Char
  | _, 0, acc => acc
  | 0, _, acc => acc
  | fuel + 1, n + 1, acc =>
    toBase36Go fuel ((n + 1) / 36) (base36Digit ((n + 1) % 36) :: acc)

/-- `Math.abs(hash).toString(36)` for a natural number. -/
def natToBase36 (n : Nat) : String :=
  if n = 0 then "0" else String.mk (toBase36Go n n [])

/-- `FileLayer.hashKey`: the 32-bit string hash of the key rendered in base
36 (characters are modelled by their scalar values, which agree with UTF-16
code units on the basic plane). -/
def hashKey (s : String) : String :=
  natToBase36 (s.data.foldl (fun h ch => hashStep h ch.toNat) 0).natAbs

/-- State of a `FileLayer` instance: the cache directory contents as a map
from file name stem (`hashKey key`) to the parsed entry, the hit/miss
statistics and the default TTL.  The filesystem and JSON round trip are
abstracted; the available-filesystem path (`this.fs` set) is modelled. -/
structure FileState (V : Type) where
  store : List (String × CacheEntry V)
  statsHits : Nat
  statsMisses : Nat
  defaultTTL : Nat
  deriving DecidableEq, Repr

/-- `FileLayer.set`: writes a fresh entry record (effective TTL, tags from
the options) to the file named by the key hash, overwriting any previous
record. -/
def fileSet {V : Type} (now : Nat) (key : String) (v : V) (o : CacheOptions)
    (st : FileState V) : FileState V :=
  { st with store := mapSet st.store (hashKey key) (newEntry now v o st.defaultTTL) }

/-- `FileLayer.delete`: unlinks the file of the key; reports whether it
existed. -/
def fileDelete {V : Type} (key : String) (st : FileState V) :
    Bool × FileState V :=
  (mapHas st.store (hashKey key),
   { st with store := mapDelete st.store (hashKey key) })

/-- `FileLayer.get`: a missing or unreadable record is a miss; a record with
`expiresAt < Date.now()` is unlinked and reported as a miss; otherwise the
stored value is returned.  Note the on-disk entry is not rewritten, so its
access counters never change. -/
def fileGet {V : Type} (now : Nat) (key : String) (st : FileState V) :
    Option V × FileState V :=
  match mapGet st.store (hashKey key) with
  | none => (none, { st with statsMisses := st.statsMisses + 1 })
  | some e =>
    if e.expiresAt < now then
      (none, { st with store := mapDelete st.store (hashKey key),
                       statsMisses := st.statsMisses + 1 })
    else
      (some e.value, { st with statsHits := st.statsHits + 1 })

/-- `FileLayer.has`: `fs.access(filePath)` — reports whether the file of the
key exists.  The record contents, in particular `expiresAt`, are not
consulted. -/
def fileHas {V : Type} (key : String) (st : FileState V) : Bool :=
  mapHas st.store (hashKey key)

/-- State of a `RedisLayer` instance: the remote keyspace as a map from the
prefixed key to the stored (serialized) entry together with its server-side
`PX` expiry instant, the tag membership sets, the default TTL and the key
prefix (field `pfx` models the class field holding the `cache:` prefix). -/
structure RedisState (V : Type) where
  kv : List (String × (CacheEntry V × Nat))
  tagSets : List (String × List String)
  defaultTTL : Nat
  pfx : String
  deriving DecidableEq, Repr

/-- The `SADD` command: adds a member to a set, creating it when absent. -/
def saddModel (m : List (String × List String)) (skey member : String) :
    List (String × List String) :=
  match mapGet m skey with
  | none => mapSet m skey [member]
  | some s => mapSet m skey (if member ∈ s then s else s ++ [member])

/-- `RedisLayer.set`: builds the entry record (effective TTL, tags from the
options), stores it under the prefixed key with a `PX` expiry equal to the
effective TTL, then adds the key to the set of each tag. -/
def redisSet {V : Type} (now : Nat) (key : String) (v : V) (o : CacheOptions)
    (st : RedisState V) : RedisState V :=
  let t := effectiveTTL o.ttl st.defaultTTL
  let kv2 := mapSet st.kv (st.pfx ++ key) (newEntry now v o st.defaultTTL, now + t)
  let ts2 :=
    match o.tags with
    | none => st.tagSets
    | some tags =>
      tags.foldl (fun acc tg => saddModel acc (st.pfx ++ "tag:" ++ tg) key) st.tagSets
  { st with kv := kv2, tagSets := ts2 }

/-- Global counters of the `CacheComposer` (`this.globalStats`). -/
structure GlobalStats where
  hits : Nat
  misses : Nat
  sets : Nat
  deletes : Nat
  deriving DecidableEq, Repr

/-- One layer held by the composer.  The storage behaviour is instantiated
with the in-process `MemoryLayer` model; `name` is the `layer.name` field and
`hasTagDelete` models the per-call capability reflection
(`'deleteByTag' in layer && typeof layer.deleteByTag === 'function'`) of
`CacheComposer.deleteByTag`, so that layers without the optional method are
expressible. -/
structure CLayer (V : Type) where
  name : String
  hasTagDelete : Bool
  mem : MemLayer V
  deriving DecidableEq, Repr

/-- State of a `CacheComposer`: the ordered layer list (fastest first), the
analytics flag and the global counters. -/
structure Composer (V : Type) where
  layers : List (CLayer V)
  analytics : Bool
  g : GlobalStats
  deriving DecidableEq, Repr

/-- The probe loop of `CacheComposer.get`: try the layers in order; on the
first present value, re-insert it into every earlier (faster) layer with a
plain `set(key, value)` carrying no options, and stop probing.  Probing a
layer applies that layer's own `get` side effects (miss counter, lazy expiry
removal); layers after the hit are untouched.  Per-layer states are disjoint,
so the sequential promotion order of the source loop is reflected by the
independent per-layer updates. -/
def probeLayers {V : Type} (now : Nat) (key : String) :
    List (CLayer V) → Option V × List (CLayer V)
  | [] => (none, [])
  | l :: rest =>
    let r := memGet now key l.mem
    match r.1 with
    | some v => (some v, { l with mem := r.2 } :: rest)
    | none =>
      let d := probeLayers now key rest
      match d.1 with
      | some v => (some v, { l with mem := memSet now key v {} r.2 } :: d.2)
      | none => (none, { l with mem := r.2 } :: d.2)

/-- `CacheComposer.get`: probe the layers; a hit increments the global hit
counter (when analytics is enabled) after the promotions completed, a miss
increments the global miss counter. -/
def composerGet {V : Type} (now : Nat) (key : String) (c : Composer V) :
    Option V × Composer V :=
  let r := probeLayers now key c.layers
  match r.1 with
  | some v =>
    (some v,
     { c with layers := r.2,
              g := { c.g with hits := c.g.hits + (if c.analytics then 1 else 0) } })
  | none =>
    (none,
     { c with layers := r.2,
              g := { c.g with misses := c.g.misses + (if c.analytics then 1 else 0) } })

/-- `CacheComposer.set`: increments the global set counter (when analytics is
enabled) and writes to every layer with the same options. -/
def composerSet {V : Type} (now : Nat) (key : String) (v : V)
    (o : CacheOptions) (c : Composer V) : Composer V :=
  { c with
      g := { c.g with sets := c.g.sets + (if c.analytics then 1 else 0) }
      layers := c.layers.map (fun l => { l with mem := memSet now key v o l.mem }) }

/-- `CacheComposer.delete`: increments the global delete counter (when
analytics is enabled), issues `delete` to every layer, and reports whether
any layer deleted (`results.some(r => r)`). -/
def composerDelete {V : Type} (key : String) (c : Composer V) :
    Bool × Composer V :=
  let results := c.layers.map (fun l => (memDelete key l.mem).1)
  (results.any (fun r => r),
   { c with
       g := { c.g with deletes := c.g.deletes + (if c.analytics then 1 else 0) }
       layers := c.layers.map (fun l => { l with mem := (memDelete key l.mem).2 }) })

/-- The accumulation loop of `CacheComposer.deleteByTag`: layers exposing
`deleteByTag` contribute their deletion count, the others are skipped
unchanged. -/
def tagLayersGo {V : Type} (tag : String) :
    List (CLayer V) → Nat × List (CLayer V)
  | [] => (0, [])
  | l :: rest =>
    let step :=
      if l.hasTagDelete then
        let r := memDeleteByTag tag l.mem
        (r.1, { l with mem := r.2 })
      else (0, l)
    let d := tagLayersGo tag rest
    (step.1 + d.1, step.2 :: d.2)

/-- `CacheComposer.deleteByTag`: total deletion count over the capable
layers. -/
def composerDeleteByTag {V : Type} (tag : String) (c : Composer V) :
    Nat × Composer V :=
  let r := tagLayersGo tag c.layers
  (r.1, { c with layers := r.2 })

/-- Per-layer statistics snapshot returned by `MemoryLayer.getStats` (the
wall-clock `avgAccessTime` field is outside the model). -/
structure MemLayerStats where
  hits : Nat
  misses : Nat
  size : Nat
  deriving DecidableEq, Repr

/-- `MemoryLayer.getStats`. -/
def memGetStats {V : Type} (st : MemLayer V) : MemLayerStats :=
  { hits := st.statsHits, misses := st.statsMisses, size := st.statsSize }

/-- The record returned by `CacheComposer.getStats` (`CacheStats`); the hit
rate is an exact rational in the model. -/
structure CacheStats where
  hits : Nat
  misses : Nat
  sets : Nat
  deletes : Nat
  hitRate : Rat
  totalRequests : Nat
  layerStats : List (String × MemLayerStats)
  deriving DecidableEq, Repr

/-- `CacheComposer.getStats`: `totalRequests = hits + misses` and
`hitRate = hits / totalRequests` when there was at least one request, 0
otherwise; per-layer statistics are queried live and keyed by layer name. -/
def composerGetStats {V : Type} (c : Composer V) : CacheStats :=
  let totalRequests := c.g.hits + c.g.misses
  let hitRate : Rat :=
    if 0 < totalRequests then (c.g.hits : Rat) / (totalRequests : Rat) else 0
  { hits := c.g.hits
    misses := c.g.misses
    sets := c.g.sets
    deletes := c.g.deletes
    hitRate := hitRate
    totalRequests := totalRequests
    layerStats := c.layers.foldl (fun acc l => mapSet acc l.name (memGetStats l.mem)) [] }

/-- Concrete layer used to instantiate the theorems on executable inputs. -/
def wLayer : CLayer Nat :=
  { name := "memory", hasTagDelete := true, mem := emptyMem 1000 3600000 .lru }

/-- One-layer composer with fresh counters. -/
def wComposer1 : Composer Nat :=
  { layers := [wLayer], analytics := true,
    g := { hits := 0, misses := 0, sets := 0, deletes := 0 } }

/-- A live entry holding value 7 until instant 100. -/
def wEntryB : CacheEntry Nat :=
  { value := 7, expiresAt := 100, createdAt := 0, accessCount := 0,
    lastAccessed := 0, tags := none }

/-- An empty fast layer. -/
def wLayerA : CLayer Nat :=
  { name := "memory", hasTagDelete := true, mem := emptyMem 2 50 .lru }

/-- A slower layer already holding the key `k`. -/
def wLayerB : CLayer Nat :=
  { name := "memory", hasTagDelete := true,
    mem := { cache := [("k", wEntryB)], statsHits := 0, statsMisses := 0,
             statsSize := 1, maxSize := 10, defaultTTL := 60,
             invalidation := .lru } }

/-- Two-layer composer where only the second layer holds `k`. -/
def wComposer2 : Composer Nat :=
  { layers := [wLayerA, wLayerB], analytics := true,
    g := { hits := 0, misses := 0, sets := 0, deletes := 0 } }

/-- A resident entry last accessed at instant 2. -/
def wEntryA : CacheEntry Nat :=
  { value := 1, expiresAt := 30, createdAt := 0, accessCount := 0,
    lastAccessed := 2, tags := none }

/-- A memory layer at capacity (one entry, `maxSize = 1`). -/
def wMemFull : MemLayer Nat :=
  { cache := [("a", wEntryA)], statsHits := 0, statsMisses := 0,
    statsSize := 1, maxSize := 1, defaultTTL := 20, invalidation := .lru }

/-- A resident entry last accessed at instant 9 with three recorded hits. -/
def wEntryC : CacheEntry Nat :=
  { value := 2, expiresAt := 40, createdAt := 1, accessCount := 3,
    lastAccessed := 9, tags := none }

/-- A two-entry memory layer under the recency policy. -/
def wMemTwo : MemLayer Nat :=
  { cache := [("a", wEntryA), ("c", wEntryC)], statsHits := 0,
    statsMisses := 0, statsSize := 2, maxSize := 5, defaultTTL := 20,
    invalidation := .lru }

/-- An operation sequence exercising every layer call. -/
def wOps : List (MemOp Nat) :=
  [MemOp.set 0 "x" 1 {}, MemOp.set 1 "y" 2 {}, MemOp.set 2 "z" 3 {},
   MemOp.get 3 "y", MemOp.del "x", MemOp.has 4 "z", MemOp.deleteByTag "t"]

/-- An entry already expired at instant 2. -/
def wExpiredEntry : CacheEntry Nat :=
  { value := 42, expiresAt := 1, createdAt := 0, accessCount := 0,
    lastAccessed := 0, tags := none }

/-- A file layer whose only record (for key `k`) is expired. -/
def wFile : FileState Nat :=
  { store := [(hashKey "k", wExpiredEntry)], statsHits := 0, statsMisses := 0,
    defaultTTL := 1000 }

/-- A composer whose counters already show three hits and one miss. -/
def wComposer9 : Composer Nat :=
  { layers := [wLayer], analytics := true,
    g := { hits := 3, misses := 1, sets := 0, deletes := 0 } }

/-- An empty file layer with default TTL 40. -/
def wFile10 : FileState Nat :=
  { store := [], statsHits := 0, statsMisses := 0, defaultTTL := 40 }

/-- An empty remote layer with default TTL 40 and the standard prefix. -/
def wRedis10 : RedisState Nat :=
  { kv := [], tagSets := [], defaultTTL := 40, pfx := "cache:" }

/-- A memory layer whose only entry (key `k`) is expired at instant 2. -/
def wMemExp : MemLayer Nat :=
  { cache := [("k", wExpiredEntry)], statsHits := 0, statsMisses := 0,
    statsSize := 1, maxSize := 5, defaultTTL := 1000, invalidation := .lru }

/-- Options carrying the falsy TTL value 0. -/
def wOptZero : CacheOptions := { ttl := some 0, tags := none }


theorem mapGet_mapSet_self {α : Type} (m : List (String × α)) (k : String) (v : α) :
    mapGet (mapSet m k v) k = some v := by
  induction m with
  | nil => simp [mapSet, mapGet]
  | cons p rest ih =>
    by_cases h : p.1 = k
    · simp [mapSet, h, mapGet]
    · simp [mapSet, h, mapGet, ih]

theorem mapGet_mapSet_ne {α : Type} (m : List (String × α)) (k k2 : String)
    (v : α) (h : k2 ≠ k) : mapGet (mapSet m k v) k2 = mapGet m k2 := by
  induction m with
  | nil =>
    have hh : ¬ k = k2 := fun hh => h hh.symm
    simp [mapSet, mapGet, hh]
  | cons p rest ih =>
    by_cases hp : p.1 = k
    · subst hp
      have hh : ¬ p.1 = k2 := Ne.symm h
      simp [mapSet, mapGet, hh]
    · by_cases hp2 : p.1 = k2
      · simp [mapSet, hp, mapGet, hp2, h]
      · simp [mapSet, hp, mapGet, hp2, ih]

theorem mapGet_mapDelete_self {α : Type} (m : List (String × α)) (k : String) :
    mapGet (mapDelete m k) k = none := by
  induction m with
  | nil => simp [mapDelete, mapGet]
  | cons p rest ih =>
    by_cases h : p.1 = k
    · simp [mapDelete, h, ih]
    · simp [mapDelete, h, mapGet, ih]

theorem mapGet_mapDelete_ne {α : Type} (m : List (String × α)) (k k2 : String)
    (h : k2 ≠ k) : mapGet (mapDelete m k) k2 = mapGet m k2 := by
  induction m with
  | nil => simp [mapDelete]
  | cons p rest ih =>
    by_cases hp : p.1 = k
    · subst hp
      have hh : ¬ p.1 = k2 := Ne.symm h
      simp [mapDelete, mapGet, hh, ih]
    · by_cases hp2 : p.1 = k2
      · simp [mapDelete, hp, mapGet, hp2, h]
      · simp [mapDelete, hp, mapGet, hp2, ih]

theorem mapHas_mapDelete_self {α : Type} (m : List (String × α)) (k : String) :
    mapHas (mapDelete m k) k = false := by
  simp [mapHas, mapGet_mapDelete_self]

theorem mapHas_iff_mem {α : Type} (m : List (String × α)) (k : String) :
    mapHas m k = true ↔ k ∈ m.map Prod.fst := by
  induction m with
  | nil => simp [mapHas, mapGet]
  | cons p rest ih =>
    by_cases h : p.1 = k
    · simp [mapHas, mapGet, h]
    · simp [mapHas, mapGet, h, Ne.symm h] at ih ⊢
      exact ih

theorem mapHas_cons_ne {α : Type} (p : String × α) (rest : List (String × α))
    (k : String) (hp : ¬ p.1 = k) : mapHas (p :: rest) k = mapHas rest k := by
  simp [mapHas, mapGet, hp]

theorem mapHas_cons_eq {α : Type} (p : String × α) (rest : List (String × α))
    (k : String) (hp : p.1 = k) : mapHas (p :: rest) k = true := by
  simp [mapHas, mapGet, hp]

theorem length_mapSet_of_has {α : Type} (m : List (String × α)) (k : String)
    (v : α) (h : mapHas m k = true) : (mapSet m k v).length = m.length := by
  induction m with
  | nil => simp [mapHas, mapGet] at h
  | cons p rest ih =>
    by_cases hp : p.1 = k
    · simp [mapSet, hp]
    · rw [mapHas_cons_ne p rest k hp] at h
      simp [mapSet, hp, ih h]

theorem length_mapSet_of_not_has {α : Type} (m : List (String × α)) (k : String)
    (v : α) (h : mapHas m k = false) : (mapSet m k v).length = m.length + 1 := by
  induction m with
  | nil => simp [mapSet]
  | cons p rest ih =>
    by_cases hp : p.1 = k
    · rw [mapHas_cons_eq p rest k hp] at h
      exact absurd h (by simp)
    · rw [mapHas_cons_ne p rest k hp] at h
      simp [mapSet, hp, ih h]

theorem length_mapDelete_le {α : Type} (m : List (String × α)) (k : String) :
    (mapDelete m k).length ≤ m.length := by
  induction m with
  | nil => simp [mapDelete]
  | cons p rest ih =>
    by_cases hp : p.1 = k
    · simp only [mapDelete, if_pos hp, List.length_cons]
      omega
    · simp only [mapDelete, if_neg hp, List.length_cons]
      omega

theorem mapDelete_of_not_has {α : Type} (m : List (String × α)) (k : String)
    (h : mapHas m k = false) : mapDelete m k = m := by
  induction m with
  | nil => rfl
  | cons p rest ih =>
    by_cases hp : p.1 = k
    · rw [mapHas_cons_eq p rest k hp] at h
      exact absurd h (by simp)
    · rw [mapHas_cons_ne p rest k hp] at h
      simp [mapDelete, hp, ih h]

theorem length_mapDelete_of_has_nodup {α : Type} (m : List (String × α))
    (k : String) (hn : (m.map Prod.fst).Nodup) (h : mapHas m k = true) :
    (mapDelete m k).length + 1 = m.length := by
  induction m with
  | nil => simp [mapHas, mapGet] at h
  | cons p rest ih =>
    rw [List.map_cons, List.nodup_cons] at hn
    by_cases hp : p.1 = k
    · have hnot : mapHas rest k = false := by
        subst hp
        cases hhas : mapHas rest p.1 with
        | false => rfl
        | true => exact absurd ((mapHas_iff_mem rest p.1).mp hhas) hn.1
      simp [mapDelete, hp, mapDelete_of_not_has rest k hnot]
    · rw [mapHas_cons_ne p rest k hp] at h
      have hlen := ih hn.2 h
      simp only [mapDelete, if_neg hp, List.length_cons]
      omega

theorem keys_mapSet_of_has {α : Type} (m : List (String × α)) (k : String)
    (v : α) (h : mapHas m k = true) :
    (mapSet m k v).map Prod.fst = m.map Prod.fst := by
  induction m with
  | nil => simp [mapHas, mapGet] at h
  | cons p rest ih =>
    by_cases hp : p.1 = k
    · simp [mapSet, hp]
    · rw [mapHas_cons_ne p rest k hp] at h
      simp [mapSet, hp, ih h]

theorem keys_mapSet_of_not_has {α : Type} (m : List (String × α)) (k : String)
    (v : α) (h : mapHas m k = false) :
    (mapSet m k v).map Prod.fst = m.map Prod.fst ++ [k] := by
  induction m with
  | nil => simp [mapSet]
  | cons p rest ih =>
    by_cases hp : p.1 = k
    · rw [mapHas_cons_eq p rest k hp] at h
      exact absurd h (by simp)
    · rw [mapHas_cons_ne p rest k hp] at h
      simp [mapSet, hp, ih h]

theorem nodup_keys_mapSet {α : Type} (m : List (String × α)) (k : String)
    (v : α) (hn : (m.map Prod.fst).Nodup) :
    ((mapSet m k v).map Prod.fst).Nodup := by
  cases hhas : mapHas m k with
  | true => rw [keys_mapSet_of_has m k v hhas]; exact hn
  | false =>
    rw [keys_mapSet_of_not_has m k v hhas]
    have hnotin : k ∉ m.map Prod.fst := by
      intro hmem
      have := (mapHas_iff_mem m k).mpr hmem
      rw [hhas] at this
      exact Bool.false_ne_true this
    exact hn.append (List.nodup_singleton k)
      (fun a ha hb => by simp at hb; exact hnotin (hb ▸ ha))

theorem mapDelete_sublist {α : Type} (m : List (String × α)) (k : String) :
    (mapDelete m k).Sublist m := by
  induction m with
  | nil => simp [mapDelete]
  | cons p rest ih =>
    by_cases hp : p.1 = k
    · simp only [mapDelete, if_pos hp]
      exact ih.cons p
    · simp only [mapDelete, if_neg hp]
      exact ih.cons₂ p

theorem nodup_keys_mapDelete {α : Type} (m : List (String × α)) (k : String)
    (hn : (m.map Prod.fst).Nodup) : ((mapDelete m k).map Prod.fst).Nodup :=
  List.Nodup.sublist ((mapDelete_sublist m k).map Prod.fst) hn

/-- The key named by the eviction scan is the first entry of the table
attaining the minimal value of `f`: the table splits around it, every entry
carries an `f`-value at least as large, and every earlier entry a strictly
larger one. -/
def FirstMinBy {V : Type} (f : CacheEntry V → Nat)
    (l : List (String × CacheEntry V)) (k : String) : Prop :=
  ∃ e pre post, l = pre ++ (k, e) :: post ∧
    (∀ p ∈ l, f e ≤ f p.2) ∧ (∀ p ∈ pre, f e < f p.2)

theorem evictScan_acc_spec {V : Type} (f : CacheEntry V → Nat) :
    ∀ (l : List (String × CacheEntry V)) (k0 : String) (m : Nat),
      (evictScan f l (some (k0, m)) = some k0 ∧ ∀ p ∈ l, m ≤ f p.2) ∨
      (∃ k e pre post, evictScan f l (some (k0, m)) = some k ∧
        l = pre ++ (k, e) :: post ∧ f e < m ∧
        (∀ p ∈ l, f e ≤ f p.2) ∧ (∀ p ∈ pre, f e < f p.2)) := by
  intro l
  induction l with
  | nil =>
    intro k0 m
    left
    constructor
    · simp [evictScan]
    · intro p hp
      simp at hp
  | cons q rest ih =>
    intro k0 m
    by_cases hlt : f q.2 < m
    · have hstep : evictScan f (q :: rest) (some (k0, m)) =
          evictScan f rest (some (q.1, f q.2)) := by
        simp [evictScan, hlt]
      rcases ih q.1 (f q.2) with ⟨hres, hall⟩ | ⟨k, e, pre, post, hres, hsplit, hless, hall, hpre⟩
      · right
        refine ⟨q.1, q.2, [], rest, ?_, ?_, hlt, ?_, ?_⟩
        · rw [hstep, hres]
        · simp
        · intro p hp
          rcases List.mem_cons.mp hp with hp | hp
          · subst hp; exact le_refl _
          · exact hall p hp
        · intro p hp
          simp at hp
      · right
        refine ⟨k, e, q :: pre, post, ?_, ?_, ?_, ?_, ?_⟩
        · rw [hstep, hres]
        · simp [hsplit]
        · exact lt_trans hless hlt
        · intro p hp
          rcases List.mem_cons.mp hp with hp | hp
          · subst hp; exact le_of_lt hless
          · exact hall p (hsplit ▸ hp)
        · intro p hp
          rcases List.mem_cons.mp hp with hp | hp
          · subst hp; exact hless
          · exact hpre p hp
    · have hstep : evictScan f (q :: rest) (some (k0, m)) =
          evictScan f rest (some (k0, m)) := by
        simp [evictScan, hlt]
      rcases ih k0 m with ⟨hres, hall⟩ | ⟨k, e, pre, post, hres, hsplit, hless, hall, hpre⟩
      · left
        constructor
        · rw [hstep, hres]
        · intro p hp
          rcases List.mem_cons.mp hp with hp | hp
          · subst hp; omega
          · exact hall p hp
      · right
        refine ⟨k, e, q :: pre, post, ?_, ?_, hless, ?_, ?_⟩
        · rw [hstep, hres]
        · simp [hsplit]
        · intro p hp
          rcases List.mem_cons.mp hp with hp | hp
          · subst hp; omega
          · exact hall p (hsplit ▸ hp)
        · intro p hp
          rcases List.mem_cons.mp hp with hp | hp
          · subst hp; omega
          · exact hpre p hp
    
theorem evictScan_none_spec {V : Type} (f : CacheEntry V → Nat)
    (l : List (String × CacheEntry V)) (hne : l ≠ []) :
    ∃ k, evictScan f l none = some k ∧ FirstMinBy f l k := by
  cases l with
  | nil => exact absurd rfl hne
  | cons q rest =>
    have hstep : evictScan f (q :: rest) none =
        evictScan f rest (some (q.1, f q.2)) := by
      simp [evictScan]
    rcases evictScan_acc_spec f rest q.1 (f q.2) with
      ⟨hres, hall⟩ | ⟨k, e, pre, post, hres, hsplit, hless, hall, hpre⟩
    · refine ⟨q.1, by rw [hstep, hres], q.2, [], rest, by simp, ?_, ?_⟩
      · intro p hp
        rcases List.mem_cons.mp hp with hp | hp
        · subst hp; exact le_refl _
        · exact hall p hp
      · intro p hp
        simp at hp
    · refine ⟨k, by rw [hstep, hres], e, q :: pre, post, by simp [hsplit], ?_, ?_⟩
      · intro p hp
        rcases List.mem_cons.mp hp with hp | hp
        · subst hp; exact le_of_lt hless
        · exact hall p (hsplit ▸ hp)
      · intro p hp
        rcases List.mem_cons.mp hp with hp | hp
        · subst hp; exact hless
        · exact hpre p hp

theorem firstMinBy_mem {V : Type} (f : CacheEntry V → Nat)
    (l : List (String × CacheEntry V)) (k : String) (h : FirstMinBy f l k) :
    k ∈ l.map Prod.fst := by
  rcases h with ⟨e, pre, post, hsplit, -, -⟩
  subst hsplit
  simp

theorem evictChoice_spec {V : Type} (st : MemLayer V) (hne : st.cache ≠ []) :
    ∃ k, evictChoice st = some k ∧ k ∈ st.cache.map Prod.fst := by
  cases hinv : st.invalidation with
  | lru =>
    rcases evictScan_none_spec (fun e => e.lastAccessed) st.cache hne with ⟨k, hk, hmin⟩
    exact ⟨k, by simp [evictChoice, hinv, evictLRU, hk],
      firstMinBy_mem (fun e => e.lastAccessed) st.cache k hmin⟩
  | lfu =>
    rcases evictScan_none_spec (fun e => e.accessCount) st.cache hne with ⟨k, hk, hmin⟩
    exact ⟨k, by simp [evictChoice, hinv, evictLFU, hk],
      firstMinBy_mem (fun e => e.accessCount) st.cache k hmin⟩
  | ttl =>
    rcases evictScan_none_spec (fun e => e.lastAccessed) st.cache hne with ⟨k, hk, hmin⟩
    exact ⟨k, by simp [evictChoice, hinv, evictLRU, hk],
      firstMinBy_mem (fun e => e.lastAccessed) st.cache k hmin⟩
  | manual =>
    rcases evictScan_none_spec (fun e => e.lastAccessed) st.cache hne with ⟨k, hk, hmin⟩
    exact ⟨k, by simp [evictChoice, hinv, evictLRU, hk],
      firstMinBy_mem (fun e => e.lastAccessed) st.cache k hmin⟩

theorem mapGet_mem {α : Type} (m : List (String × α)) (k : String) (v : α)
    (h : mapGet m k = some v) : (k, v) ∈ m := by
  induction m with
  | nil => simp [mapGet] at h
  | cons p rest ih =>
    by_cases hp : p.1 = k
    · simp [mapGet, hp] at h
      have hpv : p = (k, v) := by
        cases p
        simp at hp h ⊢
        exact ⟨hp, h⟩
      rw [← hpv]
      exact List.mem_cons_self p rest
    · simp [mapGet, hp] at h
      exact List.mem_cons_of_mem p (ih h)

theorem mem_mapSet {α : Type} (m : List (String × α)) (k : String) (v : α)
    (p : String × α) (h : p ∈ mapSet m k v) : p = (k, v) ∨ p ∈ m := by
  induction m with
  | nil => simp [mapSet] at h; left; exact h
  | cons q rest ih =>
    by_cases hq : q.1 = k
    · simp [mapSet, hq] at h
      rcases h with h | h
      · left; exact h
      · right; exact List.mem_cons_of_mem q h
    · simp [mapSet, hq] at h
      rcases h with h | h
      · right; simp [h]
      · rcases ih h with h2 | h2
        · left; exact h2
        · right; exact List.mem_cons_of_mem q h2

theorem mem_mapDelete {α : Type} (m : List (String × α)) (k : String)
    (p : String × α) (h : p ∈ mapDelete m k) : p ∈ m :=
  (mapDelete_sublist m k).mem h

theorem memGet_eq_none {V : Type} (now : Nat) (key : String) (st : MemLayer V)
    (h : mapGet st.cache key = none) :
    memGet now key st = (none, { st with statsMisses := st.statsMisses + 1 }) := by
  simp [memGet, h]

theorem memGet_eq_expired {V : Type} (now : Nat) (key : String)
    (st : MemLayer V) (e : CacheEntry V) (h : mapGet st.cache key = some e)
    (hexp : e.expiresAt < now) :
    memGet now key st =
      (none, { st with cache := mapDelete st.cache key,
                       statsMisses := st.statsMisses + 1 }) := by
  simp [memGet, h, hexp]

theorem memGet_eq_hit {V : Type} (now : Nat) (key : String)
    (st : MemLayer V) (e : CacheEntry V) (h : mapGet st.cache key = some e)
    (hexp : ¬ e.expiresAt < now) :
    memGet now key st =
      (some e.value,
       { st with
           cache := mapSet st.cache key
             { e with accessCount := e.accessCount + 1, lastAccessed := now }
           statsHits := st.statsHits + 1 }) := by
  simp [memGet, h, hexp]

theorem memGet_config {V : Type} (now : Nat) (key : String) (st : MemLayer V) :
    ((memGet now key st).2).maxSize = st.maxSize ∧
    ((memGet now key st).2).defaultTTL = st.defaultTTL ∧
    ((memGet now key st).2).invalidation = st.invalidation := by
  cases hm : mapGet st.cache key with
  | none => simp [memGet, hm]
  | some e =>
    by_cases h : e.expiresAt < now
    · simp [memGet, hm, h]
    · simp [memGet, hm, h]

theorem evict_config {V : Type} (st : MemLayer V) :
    (evict st).maxSize = st.maxSize ∧ (evict st).defaultTTL = st.defaultTTL ∧
    (evict st).invalidation = st.invalidation := by
  unfold evict
  by_cases h : st.cache.length = 0
  · simp [h]
  · cases hc : evictChoice st <;> simp [h]

theorem memSet_cache {V : Type} (now : Nat) (key : String) (v : V)
    (o : CacheOptions) (st : MemLayer V) :
    (memSet now key v o st).cache =
      mapSet (if st.maxSize ≤ st.cache.length ∧ mapHas st.cache key = false
              then (evict st).cache else st.cache)
        key (newEntry now v o st.defaultTTL) := by
  by_cases h : st.maxSize ≤ st.cache.length ∧ mapHas st.cache key = false
  · simp [memSet, h]
  · simp [memSet, h]

theorem memSet_config {V : Type} (now : Nat) (key : String) (v : V)
    (o : CacheOptions) (st : MemLayer V) :
    (memSet now key v o st).maxSize = st.maxSize ∧
    (memSet now key v o st).defaultTTL = st.defaultTTL ∧
    (memSet now key v o st).invalidation = st.invalidation := by
  by_cases h : st.maxSize ≤ st.cache.length ∧ mapHas st.cache key = false
  · simp [memSet, h, evict_config st]
  · simp [memSet, h]

theorem memSet_get_self {V : Type} (now : Nat) (key : String) (v : V)
    (o : CacheOptions) (st : MemLayer V) :
    mapGet (memSet now key v o st).cache key =
      some (newEntry now v o st.defaultTTL) := by
  rw [memSet_cache]
  exact mapGet_mapSet_self _ key _

theorem memSet_of_no_evict {V : Type} (now : Nat) (key : String) (v : V)
    (o : CacheOptions) (st : MemLayer V)
    (h : ¬ (st.maxSize ≤ st.cache.length ∧ mapHas st.cache key = false)) :
    (memSet now key v o st).cache =
      mapSet st.cache key (newEntry now v o st.defaultTTL) := by
  rw [memSet_cache]
  simp [h]

theorem effectiveTTL_pos (o : Option Nat) (d : Nat) (hd : 0 < d) :
    0 < effectiveTTL o d := by
  cases o with
  | none => simpa [effectiveTTL] using hd
  | some t =>
    by_cases ht : t = 0
    · simpa [effectiveTTL, ht] using hd
    · simp [effectiveTTL, ht]
      omega

theorem deleteByTagGo_spec {V : Type} (tag : String)
    (l : List (String × CacheEntry V)) :
    deleteByTagGo tag l =
      ((l.filter (fun p => hasTag p.2.tags tag)).length,
       l.filter (fun p => !hasTag p.2.tags tag)) := by
  induction l with
  | nil => simp [deleteByTagGo]
  | cons p rest ih =>
    by_cases h : hasTag p.2.tags tag
    · simp [deleteByTagGo, h, ih, List.filter_cons]
    · simp [deleteByTagGo, h, ih, List.filter_cons]

theorem mapGet_none_mapDelete {α : Type} (m : List (String × α))
    (k k2 : String) (h : mapGet m k = none) :
    mapGet (mapDelete m k2) k = none := by
  by_cases hk : k = k2
  · subst hk
    exact mapGet_mapDelete_self m k
  · rw [mapGet_mapDelete_ne m k2 k hk]
    exact h

/-- Well-formedness of a memory layer table: the keys are pairwise distinct
(true of a JavaScript `Map`) and the entry count respects the capacity. -/
def MemGood {V : Type} (st : MemLayer V) : Prop :=
  (st.cache.map Prod.fst).Nodup ∧ st.cache.length ≤ st.maxSize

theorem memGood_memGet {V : Type} (now : Nat) (key : String) (st : MemLayer V)
    (h : MemGood st) : MemGood ((memGet now key st).2) := by
  cases hm : mapGet st.cache key with
  | none => rw [memGet_eq_none now key st hm]; exact h
  | some e =>
    by_cases hexp : e.expiresAt < now
    · rw [memGet_eq_expired now key st e hm hexp]
      exact ⟨nodup_keys_mapDelete _ _ h.1, le_trans (length_mapDelete_le _ _) h.2⟩
    · rw [memGet_eq_hit now key st e hm hexp]
      have hhas : mapHas st.cache key = true := by simp [mapHas, hm]
      exact ⟨nodup_keys_mapSet _ _ _ h.1,
        by simpa [length_mapSet_of_has st.cache key _ hhas] using h.2⟩

theorem memGood_memSet {V : Type} (now : Nat) (key : String) (v : V)
    (o : CacheOptions) (st : MemLayer V) (hmax : 1 ≤ st.maxSize)
    (h : MemGood st) : MemGood (memSet now key v o st) := by
  have hconf := memSet_config now key v o st
  by_cases hc : st.maxSize ≤ st.cache.length ∧ mapHas st.cache key = false
  · have hne : st.cache ≠ [] := by
      intro hnil
      rw [hnil] at hc
      simp at hc
      omega
    rcases evictChoice_spec st hne with ⟨ek, hek, hmem⟩
    have hekhas : mapHas st.cache ek = true := (mapHas_iff_mem st.cache ek).mpr hmem
    have hlen0 : ¬ st.cache.length = 0 := by
      intro h0
      rw [List.length_eq_zero] at h0
      exact hne h0
    have hevict : (evict st).cache = mapDelete st.cache ek := by
      simp [evict, hlen0, hek]
    have hdellen : (mapDelete st.cache ek).length + 1 = st.cache.length :=
      length_mapDelete_of_has_nodup st.cache ek h.1 hekhas
    have hkeynot : mapHas (mapDelete st.cache ek) key = false := by
      have : mapGet st.cache key = none := by
        cases hg : mapGet st.cache key with
        | none => rfl
        | some e2 => rw [mapHas, hg] at hc; simp at hc
      simp [mapHas, mapGet_none_mapDelete st.cache key ek this]
    constructor
    · rw [memSet_cache]
      simp only [hc, if_pos, hevict]
      have hndel : ((mapDelete st.cache ek).map Prod.fst).Nodup :=
        nodup_keys_mapDelete _ _ h.1
      simp [if_pos hc]
      exact nodup_keys_mapSet _ _ _ hndel
    · rw [hconf.1, memSet_cache]
      simp only [if_pos hc, hevict]
      rw [length_mapSet_of_not_has _ _ _ hkeynot]
      have h2 := h.2
      have hc1 := hc.1
      omega
  · constructor
    · rw [memSet_of_no_evict now key v o st hc]
      exact nodup_keys_mapSet _ _ _ h.1
    · rw [hconf.1, memSet_of_no_evict now key v o st hc]
      rcases not_and_or.mp hc with hlt | hhas
      · have hlen : st.cache.length < st.maxSize := by omega
        cases hhas2 : mapHas st.cache key with
        | true => rw [length_mapSet_of_has _ _ _ hhas2]; exact h.2
        | false => rw [length_mapSet_of_not_has _ _ _ hhas2]; omega
      · have hhas2 : mapHas st.cache key = true := by
          cases hh : mapHas st.cache key with
          | true => rfl
          | false => exact absurd hh hhas
        rw [length_mapSet_of_has _ _ _ hhas2]
        exact h.2

theorem memGood_applyOp {V : Type} (op : MemOp V) (st : MemLayer V)
    (hmax : 1 ≤ st.maxSize) (h : MemGood st) : MemGood (applyOp op st) := by
  cases op with
  | get now key => exact memGood_memGet now key st h
  | set now key v o => exact memGood_memSet now key v o st hmax h
  | del key =>
    exact ⟨nodup_keys_mapDelete _ _ h.1,
      le_trans (length_mapDelete_le _ _) h.2⟩
  | clear => exact ⟨by simp [applyOp, memClear], by simp [applyOp, memClear]⟩
  | has now key =>
    cases hm : mapGet st.cache key with
    | none => simpa [applyOp, memHas, hm] using h
    | some e =>
      by_cases hexp : e.expiresAt < now
      · refine ⟨?_, ?_⟩
        · simpa [applyOp, memHas, hm, hexp] using nodup_keys_mapDelete _ _ h.1
        · simpa [applyOp, memHas, hm, hexp] using
            le_trans (length_mapDelete_le st.cache key) h.2
      · simpa [applyOp, memHas, hm, hexp] using h
  | deleteByTag tag =>
    refine ⟨?_, ?_⟩
    · simp [applyOp, memDeleteByTag, deleteByTagGo_spec]
      exact List.Nodup.sublist ((List.filter_sublist _).map Prod.fst) h.1
    · simp [applyOp, memDeleteByTag, deleteByTagGo_spec]
      exact le_trans (List.length_filter_le _ _) h.2

theorem applyOp_config {V : Type} (op : MemOp V) (st : MemLayer V) :
    (applyOp op st).maxSize = st.maxSize ∧
    (applyOp op st).defaultTTL = st.defaultTTL ∧
    (applyOp op st).invalidation = st.invalidation := by
  cases op with
  | get now key => exact memGet_config now key st
  | set now key v o => exact memSet_config now key v o st
  | del key => exact ⟨rfl, rfl, rfl⟩
  | clear => exact ⟨rfl, rfl, rfl⟩
  | has now key =>
    cases hm : mapGet st.cache key with
    | none => simp [applyOp, memHas, hm]
    | some e =>
      by_cases hexp : e.expiresAt < now
      · simp [applyOp, memHas, hm, hexp]
      · simp [applyOp, memHas, hm, hexp]
  | deleteByTag tag => exact ⟨rfl, rfl, rfl⟩

theorem memGood_runOps {V : Type} (ops : List (MemOp V)) (st : MemLayer V)
    (hmax : 1 ≤ st.maxSize) (h : MemGood st) :
    MemGood (runOps ops st) ∧ (runOps ops st).maxSize = st.maxSize := by
  induction ops generalizing st with
  | nil => exact ⟨h, rfl⟩
  | cons op rest ih =>
    have hconf := applyOp_config op st
    have hstep := memGood_applyOp op st hmax h
    have := ih (applyOp op st) (hconf.1 ▸ hmax) hstep
    refine ⟨this.1, ?_⟩
    rw [runOps] at this ⊢
    simp only [List.foldl_cons] at this ⊢
    rw [this.2, hconf.1]

/-- Lifecycle invariant of the entry records resident in a memory layer:
every entry was created before it expires. -/
def EntriesLive {V : Type} (st : MemLayer V) : Prop :=
  ∀ p ∈ st.cache, p.2.createdAt < p.2.expiresAt

theorem entriesLive_memGet {V : Type} (now : Nat) (key : String)
    (st : MemLayer V) (h : EntriesLive st) : EntriesLive ((memGet now key st).2) := by
  cases hm : mapGet st.cache key with
  | none =>
    rw [memGet_eq_none now key st hm]
    exact h
  | some e =>
    by_cases hexp : e.expiresAt < now
    · rw [memGet_eq_expired now key st e hm hexp]
      intro p hp
      exact h p (mem_mapDelete _ _ p hp)
    · rw [memGet_eq_hit now key st e hm hexp]
      intro p hp
      rcases mem_mapSet _ _ _ p hp with hp2 | hp2
      · have he := h (key, e) (mapGet_mem st.cache key e hm)
        rw [hp2]
        exact he
      · exact h p hp2

theorem entriesLive_memSet {V : Type} (now : Nat) (key : String) (v : V)
    (o : CacheOptions) (st : MemLayer V) (hd : 0 < st.defaultTTL)
    (h : EntriesLive st) : EntriesLive (memSet now key v o st) := by
  intro p hp
  rw [memSet_cache] at hp
  rcases mem_mapSet _ _ _ p hp with hp2 | hp2
  · rw [hp2]
    simp [newEntry]
    exact effectiveTTL_pos o.ttl st.defaultTTL hd
  · by_cases hc : st.maxSize ≤ st.cache.length ∧ mapHas st.cache key = false
    · rw [if_pos hc] at hp2
      have hsub : (evict st).cache.Sublist st.cache := by
        unfold evict
        by_cases h0 : st.cache.length = 0
        · simp [h0]
        · cases hch : evictChoice st with
          | none => simp [h0]
          | some ek => simp [h0]; exact mapDelete_sublist st.cache ek
      exact h p (hsub.mem hp2)
    · rw [if_neg hc] at hp2
      exact h p hp2

theorem entriesLive_applyOp {V : Type} (op : MemOp V) (st : MemLayer V)
    (hd : 0 < st.defaultTTL) (h : EntriesLive st) :
    EntriesLive (applyOp op st) := by
  cases op with
  | get now key => exact entriesLive_memGet now key st h
  | set now key v o => exact entriesLive_memSet now key v o st hd h
  | del key =>
    intro p hp
    exact h p (mem_mapDelete _ _ p hp)
  | clear =>
    intro p hp
    simp [applyOp, memClear] at hp
  | has now key =>
    cases hm : mapGet st.cache key with
    | none =>
      simp only [applyOp, memHas, hm]
      exact h
    | some e =>
      by_cases hexp : e.expiresAt < now
      · simp only [applyOp, memHas, hm, if_pos hexp]
        intro p hp
        exact h p (mem_mapDelete _ _ p hp)
      · simp only [applyOp, memHas, hm, if_neg hexp]
        exact h
  | deleteByTag tag =>
    intro p hp
    simp only [applyOp, memDeleteByTag, deleteByTagGo_spec] at hp
    exact h p (List.mem_of_mem_filter hp)

theorem entriesLive_runOps {V : Type} (ops : List (MemOp V)) (st : MemLayer V)
    (hd : 0 < st.defaultTTL) (h : EntriesLive st) :
    EntriesLive (runOps ops st) := by
  induction ops generalizing st with
  | nil => exact h
  | cons op rest ih =>
    have hconf := applyOp_config op st
    have hstep := entriesLive_applyOp op st hd h
    have := ih (applyOp op st) (hconf.2.1 ▸ hd) hstep
    rw [runOps] at this ⊢
    simpa using this

theorem probeLayers_hit {V : Type} (now : Nat) (key : String) (v : V)
    (pre : List (CLayer V)) (hl : CLayer V) (post : List (CLayer V))
    (hpre : ∀ l ∈ pre, (memGet now key l.mem).1 = none)
    (hhit : (memGet now key hl.mem).1 = some v) :
    probeLayers now key (pre ++ hl :: post) =
      (some v,
       pre.map (fun l => { l with mem := memSet now key v {} (memGet now key l.mem).2 })
         ++ { hl with mem := (memGet now key hl.mem).2 } :: post) := by
  induction pre with
  | nil =>
    simp only [List.nil_append, List.map_nil]
    simp [probeLayers, hhit]
  | cons l pre2 ih =>
    have h0 : (memGet now key l.mem).1 = none := hpre l (by simp)
    have ihh := ih (fun l2 hl2 => hpre l2 (by simp [hl2]))
    simp only [List.cons_append, probeLayers, h0, List.append_eq]
    rw [ihh]
    simp

theorem probeLayers_miss {V : Type} (now : Nat) (key : String)
    (ls : List (CLayer V))
    (hmiss : ∀ l ∈ ls, (memGet now key l.mem).1 = none) :
    probeLayers now key ls =
      (none, ls.map (fun l => { l with mem := (memGet now key l.mem).2 })) := by
  induction ls with
  | nil => simp [probeLayers]
  | cons l rest ih =>
    have h0 : (memGet now key l.mem).1 = none := hmiss l (by simp)
    have ihh := ih (fun l2 hl2 => hmiss l2 (by simp [hl2]))
    simp only [probeLayers, h0]
    rw [ihh]
    simp

/-- C1: for every key k and value v, `Composer.set(k, v)` immediately
followed by `Composer.get(k)` returns v, provided the configured TTL has not
elapsed (the probe instant `now2` is at most the write instant plus the
effective TTL of the fastest layer) and no intervening eviction removed k
(none can: the two calls are adjacent, and the eviction inside `set` never
evicts the key being written). -/
theorem composer_set_get_roundtrip {V : Type} (c : Composer V) (k : String)
    (v : V) (o : CacheOptions) (now now2 : Nat) (l0 : CLayer V)
    (rest : List (CLayer V)) (hl : c.layers = l0 :: rest)
    (hts : now2 ≤ now + effectiveTTL o.ttl l0.mem.defaultTTL) :
    (composerGet now2 k (composerSet now k v o c)).1 = some v := by
  have hlayers : (composerSet now k v o c).layers =
      { l0 with mem := memSet now k v o l0.mem } ::
        rest.map (fun l => { l with mem := memSet now k v o l.mem }) := by
    simp [composerSet, hl]
  have hget : mapGet (memSet now k v o l0.mem).cache k =
      some (newEntry now v o l0.mem.defaultTTL) := memSet_get_self now k v o l0.mem
  have hnexp : ¬ (newEntry now v o l0.mem.defaultTTL).expiresAt < now2 := by
    simp [newEntry]
    omega
  have hhit := memGet_eq_hit now2 k (memSet now k v o l0.mem)
    (newEntry now v o l0.mem.defaultTTL) hget hnexp
  have hhit1 : (memGet now2 k (memSet now k v o l0.mem)).1 = some v := by
    rw [hhit]
    simp [newEntry]
  have hprobe := probeLayers_hit now2 k v []
    { l0 with mem := memSet now k v o l0.mem }
    (rest.map (fun l => { l with mem := memSet now k v o l.mem }))
    (by intro l hl2; simp at hl2) (by simpa using hhit1)
  simp only [List.nil_append, List.map_nil] at hprobe
  simp only [composerGet, hlayers]
  rw [hprobe]

/-- Witness for C1 on a concrete one-layer composer. -/
theorem composer_set_get_roundtrip_witness :
    (composerGet 0 "k" (composerSet 0 "k" 7 {} wComposer1)).1 = some 7 :=
  composer_set_get_roundtrip wComposer1 "k" 7 {} 0 0 wLayer [] rfl (by decide)

/-- C2: `Composer.get` probes layers in order 0..n-1; on the first layer
returning a present value it increments the global hit counter (when
analytics is enabled) and back-fills every earlier layer with a plain
`set(key, value)` carrying no options — so each faster layer applies its own
default TTL and no tags are carried forward — all completed in the state
returned by `get`; if no layer has the key, the global miss counter is
incremented and the result is absent. -/
theorem composer_get_probe_promote {V : Type} (c : Composer V) (now : Nat)
    (key : String) :
    (∀ (pre : List (CLayer V)) (hl : CLayer V) (post : List (CLayer V)) (v : V),
      c.layers = pre ++ hl :: post →
      (∀ l ∈ pre, (memGet now key l.mem).1 = none) →
      (memGet now key hl.mem).1 = some v →
      composerGet now key c =
        (some v,
         { layers := pre.map
               (fun l => { l with mem := memSet now key v {} (memGet now key l.mem).2 })
             ++ { hl with mem := (memGet now key hl.mem).2 } :: post,
           analytics := c.analytics,
           g := { c.g with hits := c.g.hits + (if c.analytics then 1 else 0) } }) ∧
      (∀ l ∈ pre,
        mapGet (memSet now key v {} (memGet now key l.mem).2).cache key =
          some { value := v, expiresAt := now + l.mem.defaultTTL,
                 createdAt := now, accessCount := 0, lastAccessed := now,
                 tags := none })) ∧
    ((∀ l ∈ c.layers, (memGet now key l.mem).1 = none) →
      composerGet now key c =
        (none,
         { layers := c.layers.map (fun l => { l with mem := (memGet now key l.mem).2 }),
           analytics := c.analytics,
           g := { c.g with misses := c.g.misses + (if c.analytics then 1 else 0) } })) := by
  constructor
  · intro pre hl post v hsplit hpre hhit
    have hprobe := probeLayers_hit now key v pre hl post hpre hhit
    constructor
    · simp only [composerGet, hsplit]
      rw [hprobe]
    · intro l hlin
      have hd := (memGet_config now key l.mem).2.1
      rw [memSet_get_self now key v {} ((memGet now key l.mem).2)]
      simp [newEntry, effectiveTTL, hd]
  · intro hmiss
    have hprobe := probeLayers_miss now key c.layers hmiss
    simp only [composerGet]
    rw [hprobe]

/-- Witness for C2 on a two-layer composer whose second layer holds the
key. -/
theorem composer_get_probe_promote_witness :
    (composerGet 5 "k" wComposer2).1 = some 7 := by
  have h := (composer_get_probe_promote wComposer2 5 "k").1 [wLayerA] wLayerB []
    7 rfl (by intro l hl2; rw [List.mem_singleton] at hl2; subst hl2; rfl) rfl
  rw [h.1]

/-- C3: before inserting a new key into a full memory layer exactly one
entry, selected by the configured policy, is evicted (the table length is
preserved and every other entry is untouched); re-inserting a resident key
never evicts; and from an empty layer with `maxSize >= 1` the entry count
never exceeds `maxSize` after any operation sequence. -/
theorem memory_capacity_enforcement {V : Type} (st : MemLayer V) (now : Nat)
    (key : String) (v : V) (o : CacheOptions) :
    ((mapHas st.cache key = false → st.maxSize ≤ st.cache.length →
      (st.cache.map Prod.fst).Nodup → 1 ≤ st.maxSize →
      ∃ ek, evictChoice st = some ek ∧ mapHas st.cache ek = true ∧
        mapHas (memSet now key v o st).cache ek = false ∧
        (memSet now key v o st).cache.length = st.cache.length ∧
        ∀ k2, k2 ≠ key → k2 ≠ ek →
          mapGet (memSet now key v o st).cache k2 = mapGet st.cache k2) ∧
     (mapHas st.cache key = true →
      (memSet now key v o st).cache.length = st.cache.length ∧
      ∀ k2, k2 ≠ key →
        mapGet (memSet now key v o st).cache k2 = mapGet st.cache k2)) ∧
    (∀ (m d : Nat) (inv : InvalidationType) (ops : List (MemOp V)),
      1 ≤ m → (runOps ops (emptyMem m d inv)).cache.length ≤ m) := by
  refine ⟨⟨?_, ?_⟩, ?_⟩
  · intro hhas hfull hnodup hmax
    have hc : st.maxSize ≤ st.cache.length ∧ mapHas st.cache key = false :=
      ⟨hfull, hhas⟩
    have hne : st.cache ≠ [] := by
      intro hnil
      rw [hnil] at hfull
      simp at hfull
      omega
    rcases evictChoice_spec st hne with ⟨ek, hek, hmem⟩
    have hekhas : mapHas st.cache ek = true := (mapHas_iff_mem st.cache ek).mpr hmem
    have hlen0 : ¬ st.cache.length = 0 := by
      intro h0
      rw [List.length_eq_zero] at h0
      exact hne h0
    have hevict : (evict st).cache = mapDelete st.cache ek := by
      simp [evict, hlen0, hek]
    have hcache : (memSet now key v o st).cache =
        mapSet (mapDelete st.cache ek) key (newEntry now v o st.defaultTTL) := by
      rw [memSet_cache]
      simp only [if_pos hc, hevict]
    have hkne : ek ≠ key := by
      intro hkk
      rw [hkk, hhas] at hekhas
      exact Bool.false_ne_true hekhas
    have hdellen := length_mapDelete_of_has_nodup st.cache ek hnodup hekhas
    have hkeynot : mapHas (mapDelete st.cache ek) key = false := by
      have hnone : mapGet st.cache key = none := by
        cases hg : mapGet st.cache key with
        | none => rfl
        | some e2 => rw [mapHas, hg] at hhas; simp at hhas
      simp [mapHas, mapGet_none_mapDelete st.cache key ek hnone]
    refine ⟨ek, hek, hekhas, ?_, ?_, ?_⟩
    · rw [hcache]
      simp [mapHas, mapGet_mapSet_ne _ key ek _ hkne, mapGet_mapDelete_self]
    · rw [hcache, length_mapSet_of_not_has _ _ _ hkeynot]
      omega
    · intro k2 hk2key hk2ek
      rw [hcache, mapGet_mapSet_ne _ key k2 _ hk2key,
        mapGet_mapDelete_ne _ ek k2 hk2ek]
  · intro hhas
    have hc : ¬ (st.maxSize ≤ st.cache.length ∧ mapHas st.cache key = false) := by
      intro hc2
      rw [hhas] at hc2
      simp at hc2
    constructor
    · rw [memSet_of_no_evict now key v o st hc, length_mapSet_of_has _ _ _ hhas]
    · intro k2 hk2
      rw [memSet_of_no_evict now key v o st hc, mapGet_mapSet_ne _ key k2 _ hk2]
  · intro m d inv ops hm
    have hgood : MemGood (emptyMem (V := V) m d inv) :=
      ⟨by simp [emptyMem], by simp [emptyMem]⟩
    have hrun := memGood_runOps ops (emptyMem m d inv)
      (by simpa [emptyMem] using hm) hgood
    have h1 := hrun.1.2
    rw [hrun.2] at h1
    simpa [emptyMem] using h1

/-- Witness for C3: inserting a new key `b` into the full one-entry layer
evicts exactly the selected key, and a seven-operation run from an empty
layer with capacity 2 stays within capacity. -/
theorem memory_capacity_enforcement_witness :
    (∃ ek, evictChoice wMemFull = some ek ∧ mapHas wMemFull.cache ek = true ∧
      mapHas (memSet 10 "b" 5 {} wMemFull).cache ek = false ∧
      (memSet 10 "b" 5 {} wMemFull).cache.length = wMemFull.cache.length ∧
      ∀ k2, k2 ≠ "b" → k2 ≠ ek →
        mapGet (memSet 10 "b" 5 {} wMemFull).cache k2 = mapGet wMemFull.cache k2) ∧
    (runOps wOps (emptyMem 2 10 InvalidationType.lru) : MemLayer Nat).cache.length ≤ 2 :=
  ⟨(memory_capacity_enforcement wMemFull 10 "b" 5 {}).1.1 (by decide) (by decide)
      (by decide) (by decide),
   (memory_capacity_enforcement wMemFull 10 "b" 5 {}).2 2 10 InvalidationType.lru
      wOps (by decide)⟩

/-- C4: under the frequency (`lfu`) policy the evicted key is the first-found
entry with the smallest `accessCount`; under any other policy — including the
default taken when the type is neither `lru` nor `lfu` — it is the
first-found entry with the smallest `lastAccessed` (the recency rule). -/
theorem eviction_selection_rule {V : Type} (st : MemLayer V)
    (hne : st.cache ≠ []) :
    (st.invalidation = InvalidationType.lfu →
      ∃ k, evictChoice st = some k ∧
        FirstMinBy (fun e => e.accessCount) st.cache k) ∧
    (st.invalidation ≠ InvalidationType.lfu →
      ∃ k, evictChoice st = some k ∧
        FirstMinBy (fun e => e.lastAccessed) st.cache k) ∧
    (st.invalidation ≠ InvalidationType.lru →
      st.invalidation ≠ InvalidationType.lfu → evictChoice st = evictLRU st) := by
  refine ⟨?_, ?_, ?_⟩
  · intro hinv
    rcases evictScan_none_spec (fun e => e.accessCount) st.cache hne with ⟨k, hk, hmin⟩
    refine ⟨k, ?_, hmin⟩
    simp [evictChoice, hinv, evictLFU, hk]
  · intro hinv
    rcases evictScan_none_spec (fun e => e.lastAccessed) st.cache hne with ⟨k, hk, hmin⟩
    refine ⟨k, ?_, hmin⟩
    cases hi : st.invalidation with
    | lru => simp [evictChoice, hi, evictLRU, hk]
    | lfu => exact absurd hi hinv
    | ttl => simp [evictChoice, hi, evictLRU, hk]
    | manual => simp [evictChoice, hi, evictLRU, hk]
  · intro h1 h2
    cases hi : st.invalidation with
    | lru => exact absurd hi h1
    | lfu => exact absurd hi h2
    | ttl => simp [evictChoice, hi]
    | manual => simp [evictChoice, hi]

/-- Witness for C4 on a two-entry recency layer: the eviction choice exists
and is a first-found minimum of `lastAccessed`. -/
theorem eviction_selection_rule_witness :
    ∃ k, evictChoice wMemTwo = some k ∧
      FirstMinBy (fun e => e.lastAccessed) wMemTwo.cache k :=
  (eviction_selection_rule wMemTwo (by decide)).2.1 (by decide)

/-- C5 (refuted on the file layer): the claim asserts that every layer
enforces expiry lazily on both `get` and `has`.  The memory layer does
(`memHas` reports absence and removes the expired entry), and the file
layer's `get` does — but `FileLayer.has` merely tests file existence via
`fs.access` and never reads `expiresAt`.  Concretely, with the record for
key `k` expired at instant 2, `get` reports absence while `has` still
reports presence. -/
theorem fileLayer_has_ignores_expiry :
    wExpiredEntry.expiresAt < 2 ∧
    (fileGet 2 "k" wFile).1 = none ∧
    fileHas "k" wFile = true ∧
    (memHas 2 "k" wMemExp).1 = false ∧
    (memGet 2 "k" wMemExp).1 = none := by
  refine ⟨by decide, ?_, ?_, by decide, by decide⟩
  · simp [fileGet, wFile, mapGet, wExpiredEntry]
  · simp [fileHas, wFile, mapHas, mapGet]

/-- C6: a freshly written entry satisfies `expiresAt > createdAt` (whenever
the effective TTL is positive) and starts with `accessCount = 0` and
`lastAccessed = createdAt`; a write never alters another resident entry (it
can only evict one); a read hit increments `accessCount` by exactly one,
refreshes `lastAccessed`, preserves the other fields and touches no other
entry; and from an empty layer with a positive default TTL every resident
entry always satisfies `expiresAt > createdAt`. -/
theorem entry_bookkeeping_invariant {V : Type} (st : MemLayer V) (now : Nat)
    (key : String) (v : V) (o : CacheOptions) :
    (0 < effectiveTTL o.ttl st.defaultTTL →
      ∃ e, mapGet (memSet now key v o st).cache key = some e ∧
        e.createdAt < e.expiresAt ∧ e.accessCount = 0 ∧
        e.lastAccessed = e.createdAt) ∧
    (∀ k2, k2 ≠ key →
      mapGet (memSet now key v o st).cache k2 = mapGet st.cache k2 ∨
      mapGet (memSet now key v o st).cache k2 = none) ∧
    (∀ e, mapGet st.cache key = some e → ¬ e.expiresAt < now →
      (memGet now key st).1 = some e.value ∧
      mapGet ((memGet now key st).2).cache key =
        some { e with accessCount := e.accessCount + 1, lastAccessed := now } ∧
      (∀ k2, k2 ≠ key →
        mapGet ((memGet now key st).2).cache k2 = mapGet st.cache k2)) ∧
    (∀ (m d : Nat) (inv : InvalidationType) (ops : List (MemOp V)), 0 < d →
      ∀ p ∈ (runOps ops (emptyMem m d inv)).cache,
        p.2.createdAt < p.2.expiresAt) := by
  refine ⟨?_, ?_, ?_, ?_⟩
  · intro httl
    refine ⟨newEntry now v o st.defaultTTL, memSet_get_self now key v o st, ?_, ?_, ?_⟩
    · simp [newEntry]
      omega
    · simp [newEntry]
    · simp [newEntry]
  · intro k2 hk2
    rw [memSet_cache]
    by_cases hc : st.maxSize ≤ st.cache.length ∧ mapHas st.cache key = false
    · rw [if_pos hc, mapGet_mapSet_ne _ key k2 _ hk2]
      unfold evict
      by_cases h0 : st.cache.length = 0
      · simp [h0]
      · cases hch : evictChoice st with
        | none => simp [h0]
        | some ek =>
          simp only [h0, if_neg, hch]
          by_cases hke : k2 = ek
          · right
            rw [hke]
            simp [mapGet_mapDelete_self]
          · left
            simp [mapGet_mapDelete_ne _ ek k2 hke]
    · rw [if_neg hc, mapGet_mapSet_ne _ key k2 _ hk2]
      left
      rfl
  · intro e hm hexp
    rw [memGet_eq_hit now key st e hm hexp]
    refine ⟨rfl, ?_, ?_⟩
    · exact mapGet_mapSet_self st.cache key _
    · intro k2 hk2
      exact mapGet_mapSet_ne st.cache key k2 _ hk2
  · intro m d inv ops hd
    have hlive : EntriesLive (emptyMem (V := V) m d inv) := by
      intro p hp
      simp [emptyMem] at hp
    exact entriesLive_runOps ops (emptyMem m d inv) (by simpa [emptyMem] using hd) hlive

/-- Witness for C6: a fresh write on the concrete full layer, a concrete
read hit, and a concrete operation run all instantiated. -/
theorem entry_bookkeeping_invariant_witness :
    (∃ e, mapGet (memSet 3 "k" 1 {} wMemFull).cache "k" = some e ∧
      e.createdAt < e.expiresAt ∧ e.accessCount = 0 ∧
      e.lastAccessed = e.createdAt) ∧
    (memGet 2 "k" wLayerB.mem).1 = some 7 ∧
    (∀ p ∈ (runOps wOps (emptyMem 2 10 InvalidationType.lru) : MemLayer Nat).cache,
      p.2.createdAt < p.2.expiresAt) :=
  ⟨(entry_bookkeeping_invariant wMemFull 3 "k" 1 {}).1 (by decide),
   ((entry_bookkeeping_invariant wLayerB.mem 2 "k" 0 {}).2.2.1 wEntryB rfl
      (by decide)).1,
   (entry_bookkeeping_invariant (emptyMem 2 10 InvalidationType.lru) 0 "z" 0 {}).2.2.2
      2 10 InvalidationType.lru wOps (by decide)⟩

theorem tagLayersGo_spec {V : Type} (tag : String) (ls : List (CLayer V)) :
    tagLayersGo tag ls =
      ((ls.map (fun l => if l.hasTagDelete then (memDeleteByTag tag l.mem).1 else 0)).sum,
       ls.map (fun l =>
         if l.hasTagDelete then { l with mem := (memDeleteByTag tag l.mem).2 } else l)) := by
  induction ls with
  | nil => simp [tagLayersGo]
  | cons l rest ih =>
    by_cases h : l.hasTagDelete
    · simp [tagLayersGo, h, ih]
    · simp [tagLayersGo, h, ih]

/-- C7: `MemoryLayer.deleteByTag` removes exactly the resident entries whose
tag set contains the tag and returns their count; a `set` installs the tag
set of the options, replacing (not merging with) any previous tags for the
key; and `Composer.deleteByTag` sums the counts of the layers that implement
tag deletion, skipping the others unchanged. -/
theorem tag_deletion_semantics {V : Type} (st : MemLayer V) (tag : String)
    (now : Nat) (key : String) (v : V) (o : CacheOptions) (c : Composer V) :
    (memDeleteByTag tag st).1 =
        (st.cache.filter (fun p => hasTag p.2.tags tag)).length ∧
    ((memDeleteByTag tag st).2).cache =
        st.cache.filter (fun p => !hasTag p.2.tags tag) ∧
    (∃ e, mapGet (memSet now key v o st).cache key = some e ∧ e.tags = o.tags) ∧
    composerDeleteByTag tag c =
      ((c.layers.map (fun l => if l.hasTagDelete then (memDeleteByTag tag l.mem).1 else 0)).sum,
       { c with layers := c.layers.map (fun l =>
           if l.hasTagDelete then { l with mem := (memDeleteByTag tag l.mem).2 } else l) }) := by
  refine ⟨?_, ?_, ?_, ?_⟩
  · simp [memDeleteByTag, deleteByTagGo_spec]
  · simp [memDeleteByTag, deleteByTagGo_spec]
  · exact ⟨newEntry now v o st.defaultTTL, memSet_get_self now key v o st,
      by simp [newEntry]⟩
  · simp [composerDeleteByTag, tagLayersGo_spec]

/-- C8: `Composer.delete` reports a deletion exactly when some layer held the
key; repeating the delete with no intervening write reports false (and the
embedding is total, so no exception can arise); the global delete counter is
incremented when analytics is enabled. -/
theorem composer_delete_semantics {V : Type} (c : Composer V) (key : String) :
    (composerDelete key c).1 = c.layers.any (fun l => mapHas l.mem.cache key) ∧
    (composerDelete key (composerDelete key c).2).1 = false ∧
    (composerDelete key c).2.g.deletes =
      c.g.deletes + (if c.analytics then 1 else 0) := by
  have h1 : ∀ (ls : List (CLayer V)),
      ((ls.map (fun l => (memDelete key l.mem).1)).any (fun r => r)) =
        ls.any (fun l => mapHas l.mem.cache key) := by
    intro ls
    induction ls with
    | nil => rfl
    | cons l rest ih =>
      simp only [List.map_cons, List.any_cons, ih]
      simp [memDelete]
  have h2 : ∀ (ls : List (CLayer V)),
      ((ls.map (fun l =>
        (memDelete key (CLayer.mem { l with mem := (memDelete key l.mem).2 })).1)).any
          (fun r => r)) = false := by
    intro ls
    induction ls with
    | nil => rfl
    | cons l rest ih =>
      simp only [List.map_cons, List.any_cons, ih]
      simp [memDelete, mapHas_mapDelete_self]
  refine ⟨?_, ?_, ?_⟩
  · simpa [composerDelete] using h1 c.layers
  · simp only [composerDelete, List.map_map]
    simpa [Function.comp] using h2 c.layers
  · simp [composerDelete]

/-- C9: `getStats` reports `totalRequests = hits + misses` and
`hitRate = hits / (hits + misses)` exactly when there was at least one
request, and exactly 0 otherwise; the counters are the ones accumulated by
`get` — a hit increments `hits`, a miss increments `misses` (when analytics
is enabled). -/
theorem stats_hit_rate {V : Type} (c : Composer V) (now : Nat) (key : String) :
    (composerGetStats c).totalRequests = c.g.hits + c.g.misses ∧
    (0 < c.g.hits + c.g.misses →
      (composerGetStats c).hitRate =
        (c.g.hits : Rat) / ((c.g.hits : Rat) + (c.g.misses : Rat))) ∧
    (c.g.hits + c.g.misses = 0 → (composerGetStats c).hitRate = 0) ∧
    (c.analytics = true →
      (∀ v : V, (composerGet now key c).1 = some v →
        (composerGet now key c).2.g.hits = c.g.hits + 1 ∧
        (composerGet now key c).2.g.misses = c.g.misses) ∧
      ((composerGet now key c).1 = none →
        (composerGet now key c).2.g.misses = c.g.misses + 1 ∧
        (composerGet now key c).2.g.hits = c.g.hits)) := by
  refine ⟨rfl, ?_, ?_, ?_⟩
  · intro h
    simp only [composerGetStats]
    rw [if_pos h]
    push_cast
    ring
  · intro h
    simp [composerGetStats, h]
  · intro hana
    constructor
    · intro v hv
      cases hp : (probeLayers now key c.layers).1 with
      | none => simp [composerGet, hp] at hv
      | some v0 => simp [composerGet, hp, hana]
    · intro hv
      cases hp : (probeLayers now key c.layers).1 with
      | some v0 => simp [composerGet, hp] at hv
      | none => simp [composerGet, hp, hana]

/-- Witness for C9 on a composer with three hits and one miss, plus a miss
performed on its (empty) layer. -/
theorem stats_hit_rate_witness :
    (composerGetStats wComposer9).hitRate =
      ((wComposer9.g.hits : Rat)) /
        ((wComposer9.g.hits : Rat) + (wComposer9.g.misses : Rat)) ∧
    (composerGet 0 "k" wComposer9).2.g.misses = wComposer9.g.misses + 1 :=
  ⟨(stats_hit_rate wComposer9 0 "k").2.1 (by decide),
   (((stats_hit_rate wComposer9 0 "k").2.2.2 rfl).2 rfl).1⟩

/-- C10 (implicit): because each layer computes the stored TTL as
`options.ttl || defaultTTL`, a `set` whose TTL option is absent or the falsy
value 0 stores an entry expiring at `now + defaultTTL` — the layer default,
not an immediately-expiring entry — in the memory, file and remote layers
alike. -/
theorem falsy_ttl_uses_default {V : Type} (now : Nat) (key : String) (v : V)
    (o : CacheOptions) (hfalsy : o.ttl = none ∨ o.ttl = some 0) :
    (∀ st : MemLayer V,
      ∃ e, mapGet (memSet now key v o st).cache key = some e ∧
        e.expiresAt = now + st.defaultTTL) ∧
    (∀ st : FileState V,
      ∃ e, mapGet (fileSet now key v o st).store (hashKey key) = some e ∧
        e.expiresAt = now + st.defaultTTL) ∧
    (∀ st : RedisState V,
      ∃ ep, mapGet (redisSet now key v o st).kv (st.pfx ++ key) = some ep ∧
        ep.1.expiresAt = now + st.defaultTTL ∧ ep.2 = now + st.defaultTTL) := by
  have heff : ∀ d : Nat, effectiveTTL o.ttl d = d := by
    intro d
    rcases hfalsy with h | h
    · simp [effectiveTTL, h]
    · simp [effectiveTTL, h]
  refine ⟨?_, ?_, ?_⟩
  · intro st
    exact ⟨newEntry now v o st.defaultTTL, memSet_get_self now key v o st,
      by simp [newEntry, heff]⟩
  · intro st
    refine ⟨newEntry now v o st.defaultTTL, ?_, by simp [newEntry, heff]⟩
    simp only [fileSet]
    exact mapGet_mapSet_self _ _ _
  · intro st
    refine ⟨(newEntry now v o st.defaultTTL,
      now + effectiveTTL o.ttl st.defaultTTL), ?_, ?_, ?_⟩
    · simp only [redisSet]
      exact mapGet_mapSet_self _ _ _
    · simp [newEntry, heff]
    · simp [heff]

/-- Witness for C10 with the falsy TTL option `some 0` on concrete memory,
file and remote layers. -/
theorem falsy_ttl_uses_default_witness :
    (∃ e, mapGet (memSet 5 "k" 9 wOptZero (emptyMem 3 40 InvalidationType.lru :
        MemLayer Nat)).cache "k" = some e ∧
      e.expiresAt = 5 + (emptyMem 3 40 InvalidationType.lru :
        MemLayer Nat).defaultTTL) ∧
    (∃ e, mapGet (fileSet 5 "k" 9 wOptZero wFile10).store (hashKey "k") = some e ∧
      e.expiresAt = 5 + wFile10.defaultTTL) ∧
    (∃ ep, mapGet (redisSet 5 "k" 9 wOptZero wRedis10).kv (wRedis10.pfx ++ "k") =
        some ep ∧
      ep.1.expiresAt = 5 + wRedis10.defaultTTL ∧ ep.2 = 5 + wRedis10.defaultTTL) := by
  have h := falsy_ttl_uses_default 5 "k" (9 : Nat) wOptZero (Or.inr rfl)
  exact ⟨h.1 (emptyMem 3 40 InvalidationType.lru), h.2.1 wFile10, h.2.2 wRedis10⟩
